import Mathlib

/-!
Verification development for the schema flattening and override resolution
engine of scripts/transform_schema.py.  Python dicts (insertion ordered) are
embedded as association lists over String keys; the two module level trackers
(invalid_prefixes, validated_prefixes) become an explicit RunState record that
is threaded through every operation, together with a ghost trace recording
each invocation of the network check validate_url.  The network itself is an
oracle of type String to Bool.
-/

/-- Dict is the embedding of a Python dict with String keys: an association
list in insertion order. -/
abbrev Dict (α : Type) := List (String × α)

/-- dget is Python dict.get: the value stored under the first matching key. -/
def dget {α : Type} : Dict α → String → Option α
  | [], _ => none
  | (k', v) :: rest, k => if k' = k then some v else dget rest k

/-- dcontains is the Python membership test (key in dict). -/
def dcontains {α : Type} (d : Dict α) (k : String) : Bool :=
  (dget d k).isSome

/-- dinsert is Python dict assignment d[k] = v: an existing key keeps its
position and gets the new value, a fresh key is appended at the end. -/
def dinsert {α : Type} : Dict α → String → α → Dict α
  | [], k, v => [(k, v)]
  | (k', v') :: rest, k, v =>
    if k' = k then (k, v) :: rest else (k', v') :: dinsert rest k v

/-- setAdd is Python set.add, embedded on a duplicate free list. -/
def setAdd (s : List String) (x : String) : List String :=
  if x ∈ s then s else s ++ [x]

/-- strTruthy models the Python truthiness test on an optional string field:
None and the empty string are falsy. -/
def strTruthy (s : Option String) : Option String :=
  match s with
  | none => none
  | some v => if v = "" then none else some v

/-- splitFirstAux splits a character list at the first colon. -/
def splitFirstAux : List Char → Option (List Char × List Char)
  | [] => none
  | c :: cs =>
    if c = ':' then some ([], cs)
    else
      match splitFirstAux cs with
      | some (a, b) => some (c :: a, b)
      | none => none

/-- splitFirstColon is Python uri.split(colon, 1) restricted to the case used
by expand_uri; none means the string has no colon at all. -/
def splitFirstColon (s : String) : Option (String × String) :=
  match splitFirstAux s.data with
  | some (a, b) => some (String.mk a, String.mk b)
  | none => none

/-- PrefixDef embeds one entry of the prefixes table; prefix_reference is the
base URL field, none when the field is missing (or the entry is falsy). -/
structure PrefixDef where
  prefix_reference : Option String
  deriving DecidableEq

/-- RunState packages the two module level trackers of transform_schema.py
(invalid_prefixes, validated_prefixes) plus a ghost trace that records every
invocation of validate_url as a pair of the namespace and the checked URL. -/
structure RunState where
  invalid_prefixes : List String
  validated_prefixes : Dict Bool
  trace : List (String × String)
  deriving DecidableEq

/-- initRunState is the state after the reset performed at the start of a
run of transform_schema. -/
def initRunState : RunState :=
  { invalid_prefixes := [], validated_prefixes := [], trace := [] }

/-- expand_uri embeds the function of the same name.  The net oracle stands
for validate_url; a network check is issued (and recorded in the ghost trace)
exactly when validate is requested and the namespace has no cached verdict. -/
def expand_uri (uri : String) (pfxs : Dict PrefixDef) (validate : Bool)
    (net : String → Bool) (st : RunState) : Option String × RunState :=
  if uri = "" then (none, st)
  else
    match splitFirstColon uri with
    | none => (none, st)
    | some (pfx, code) =>
      match dget pfxs pfx with
      | none => (none, { st with invalid_prefixes := setAdd st.invalid_prefixes pfx })
      | some pd =>
        match pd.prefix_reference with
        | none => (none, { st with invalid_prefixes := setAdd st.invalid_prefixes pfx })
        | some base_url =>
          if validate && !(dcontains st.validated_prefixes pfx) then
            (some (base_url ++ code),
              { st with
                  validated_prefixes :=
                    dinsert st.validated_prefixes pfx (net (base_url ++ code)),
                  trace := st.trace ++ [(pfx, base_url ++ code)] })
          else (some (base_url ++ code), st)

/-- netTrue is a deterministic network oracle that reports every URL as
reachable; used for concrete evaluations. -/
def netTrue : String → Bool := fun _ => true

/-- AttrDef embeds a (merged) attribute definition or a slot_usage override
spec: the four fields the transform reads, each optional (absent key or a
null value both map to none). -/
structure AttrDef where
  range : Option String := none
  description : Option String := none
  required : Option Bool := none
  multivalued : Option Bool := none
  deriving DecidableEq

/-- SlotDef embeds a global slot definition from the slots table. -/
structure SlotDef where
  range : Option String := none
  description : Option String := none
  required : Option Bool := none
  multivalued : Option Bool := none
  slot_uri : Option String := none
  deriving DecidableEq

/-- ClassDef embeds one class of the classes table.  attributes is the
inheritance merged attribute map; slot_usage maps overridden attribute names
to override specs (the transform only reads presence and, in
transform_classes, truthiness of the spec, which we model as presence). -/
structure ClassDef where
  is_a : Option String := none
  abstract : Option Bool := none
  description : Option String := none
  class_uri : Option String := none
  attributes : Dict AttrDef := []
  slot_usage : Dict AttrDef := []
  deriving DecidableEq

/-- build_class_hierarchy embeds the function of the same name: the map from
class name to the value of its is_a field. -/
def build_class_hierarchy (classes : Dict ClassDef) : Dict (Option String) :=
  classes.map (fun p => (p.1, p.2.is_a))

/-- hget is hierarchy.get(name) in Python: an absent key and a stored None
both read back as none. -/
def hget (h : Dict (Option String)) (k : String) : Option String :=
  (dget h k).join

/-- chainN iterates the parent map n times from a class name; used to state
reachability along the parent chain. -/
def chainN (h : Dict (Option String)) : Nat → String → Option String
  | 0, c => some c
  | n + 1, c =>
    match hget h c with
    | none => none
    | some p => chainN h n p

/-- containsAttr states that the named class exists and its merged attribute
map has the attribute. -/
def containsAttr (classes : Dict ClassDef) (cn attr : String) : Bool :=
  match dget classes cn with
  | none => false
  | some cd => dcontains cd.attributes attr

/-- gdcWalk is the while loop of get_defining_class, with explicit fuel; the
outer none means the fuel ran out (the source loop would still be running).
The parent argument is the value hierarchy.get(current) of the source. -/
def gdcWalk (classes : Dict ClassDef) (hierarchy : Dict (Option String))
    (attr : String) : Nat → String → Option String → Option String
  | 0, _, _ => none
  | fuel + 1, current, parent =>
    match parent with
    | none => some current
    | some p =>
      match dget classes p with
      | none => some current
      | some pd =>
        if dcontains pd.attributes attr then
          gdcWalk classes hierarchy attr fuel p (hget hierarchy p)
        else some current

/-- get_defining_class embeds the function of the same name.  The outer
Option is the fuel: none means the walk did not finish (which on acyclic
hierarchies never happens for sufficient fuel); some r is the returned
value, with r = none meaning the attribute is defined locally. -/
def get_defining_class (fuel : Nat) (class_name attr_name : String)
    (classes : Dict ClassDef) (hierarchy : Dict (Option String)) :
    Option (Option String) :=
  match hget hierarchy class_name with
  | none => some none
  | some p =>
    match gdcWalk classes hierarchy attr_name fuel class_name (some p) with
    | none => none
    | some current =>
      some (if current = class_name then none else some current)

/-- find_slot_usage embeds the function of the same name. -/
def find_slot_usage (class_name attr_name : String)
    (classes : Dict ClassDef) : Option AttrDef :=
  match dget classes class_name with
  | none => none
  | some cd => dget cd.slot_usage attr_name

/-- PSlot is one record of the output slots table: either a base slot, or an
override instance carrying an overrides back reference. -/
structure PSlot where
  id : String
  name : String
  range : Option String
  description : Option String := none
  required : Option Bool := none
  multivalued : Option Bool := none
  slot_url : Option String := none
  overrides : Option String := none
  deriving DecidableEq

/-- buildGlobalSlot builds the base record for one declared global slot,
expanding slot_uri (with validation) when the field is truthy. -/
def buildGlobalSlot (pfxs : Dict PrefixDef) (net : String → Bool)
    (slot_name : String) (sd : SlotDef) (st : RunState) : PSlot × RunState :=
  let base : PSlot :=
    { id := slot_name, name := slot_name, range := sd.range,
      description := strTruthy sd.description,
      required := sd.required, multivalued := sd.multivalued }
  match strTruthy sd.slot_uri with
  | none => (base, st)
  | some u =>
    match expand_uri u pfxs true net st with
    | (some url, st') =>
      if url = "" then (base, st')
      else ({ base with slot_url := some url }, st')
    | (none, st') => (base, st')

/-- addBaseSlots is the first loop of transform_slots: every declared global
slot is written to the output table in order. -/
def addBaseSlots (pfxs : Dict PrefixDef) (net : String → Bool) :
    Dict SlotDef → Dict PSlot → RunState → Dict PSlot × RunState
  | [], tbl, st => (tbl, st)
  | (sn, sd) :: rest, tbl, st =>
    let r0 := buildGlobalSlot pfxs net sn sd st
    addBaseSlots pfxs net rest (dinsert tbl sn r0.1) r0.2

/-- baseWalk is the base discovery while loop of transform_slots, with
explicit fuel (outer none = fuel ran out).  It walks the parent chain,
remembering the merged definition of every ancestor that bears the
attribute, stopping early at the first bearer that does not override it;
the inner option is the final value of the base_attr variable. -/
def baseWalk (classes : Dict ClassDef) (slot_name : String) :
    Nat → Option String → Option AttrDef → Option (Option AttrDef)
  | 0, _, _ => none
  | fuel + 1, parent_name, base_attr =>
    match parent_name with
    | none => some base_attr
    | some pn =>
      if pn = "" then some base_attr
      else
        match dget classes pn with
        | none => some base_attr
        | some pc =>
          match dget pc.attributes slot_name with
          | some a =>
            if dcontains pc.slot_usage slot_name then
              baseWalk classes slot_name fuel pc.is_a (some a)
            else some (some a)
          | none => baseWalk classes slot_name fuel pc.is_a base_attr

/-- chainList collects the walked ancestors of the base discovery loop: the
parent chain truncated at a missing class, an empty or missing parent name,
or fuel exhaustion. -/
def chainList (classes : Dict ClassDef) : Nat → Option String → List ClassDef
  | 0, _ => []
  | _ + 1, none => []
  | fuel + 1, some pn =>
    if pn = "" then []
    else
      match dget classes pn with
      | none => []
      | some pc => pc :: chainList classes fuel pc.is_a

/-- baseFromChain restates the base discovery on the collected ancestor
list: at each ancestor bearing the attribute, an overriding ancestor is
remembered and skipped while a non overriding one supplies the result; at
the end of the chain the most recently remembered definition (if any) is
the result. -/
def baseFromChain (slot_name : String) :
    List ClassDef → Option AttrDef → Option AttrDef
  | [], acc => acc
  | pc :: rest, acc =>
    match dget pc.attributes slot_name with
    | none => baseFromChain slot_name rest acc
    | some a =>
      if dcontains pc.slot_usage slot_name then
        baseFromChain slot_name rest (some a)
      else some a

/-- overrideRecord is the override slot instance written under the identity
slot name, dash, class name. -/
def overrideRecord (slot_name class_name : String)
    (merged_attr : AttrDef) : PSlot :=
  { id := slot_name ++ "-" ++ class_name, name := slot_name,
    range := merged_attr.range,
    description := strTruthy merged_attr.description,
    required := merged_attr.required,
    multivalued := merged_attr.multivalued,
    overrides := some slot_name }

/-- baseRecordOf is the base slot record synthesized from an ancestor
merged attribute definition found by the base discovery walk. -/
def baseRecordOf (slot_name : String) (base_attr : AttrDef) : PSlot :=
  { id := slot_name, name := slot_name, range := base_attr.range,
    description := strTruthy base_attr.description,
    required := base_attr.required,
    multivalued := base_attr.multivalued }

/-- processUsageEntry is the body of the slot_usage loop of transform_slots
for one overridden attribute name: emit a dangling override warning when the
name is absent from the merged attributes, otherwise write the override
instance and, when the base record is absent, run the base discovery walk
and synthesize the base record from its result.  none = fuel ran out. -/
def processUsageEntry (classes : Dict ClassDef) (fuel : Nat)
    (class_name : String) (class_def : ClassDef)
    (tbl : Dict PSlot) (ws : List (String × String)) (slot_name : String) :
    Option (Dict PSlot × List (String × String)) :=
  match dget class_def.attributes slot_name with
  | none => some (tbl, ws ++ [(slot_name, class_name)])
  | some merged_attr =>
    let tbl1 := dinsert tbl (slot_name ++ "-" ++ class_name)
        (overrideRecord slot_name class_name merged_attr)
    if dcontains tbl1 slot_name then some (tbl1, ws)
    else
      match baseWalk classes slot_name fuel class_def.is_a none with
      | none => none
      | some none => some (tbl1, ws)
      | some (some base_attr) =>
        some (dinsert tbl1 slot_name (baseRecordOf slot_name base_attr), ws)

/-- processUsageList folds processUsageEntry over the slot_usage entries of
one class, in order. -/
def processUsageList (classes : Dict ClassDef) (fuel : Nat)
    (class_name : String) (class_def : ClassDef) :
    List (String × AttrDef) → Dict PSlot → List (String × String) →
    Option (Dict PSlot × List (String × String))
  | [], tbl, ws => some (tbl, ws)
  | (slot_name, _) :: rest, tbl, ws =>
    match processUsageEntry classes fuel class_name class_def tbl ws slot_name with
    | none => none
    | some (tbl', ws') =>
      processUsageList classes fuel class_name class_def rest tbl' ws'

/-- processClassList folds the override materialization over all classes. -/
def processClassList (classes : Dict ClassDef) (fuel : Nat) :
    List (String × ClassDef) → Dict PSlot → List (String × String) →
    Option (Dict PSlot × List (String × String))
  | [], tbl, ws => some (tbl, ws)
  | (cn, cd) :: rest, tbl, ws =>
    match processUsageList classes fuel cn cd cd.slot_usage tbl ws with
    | none => none
    | some (tbl', ws') => processClassList classes fuel rest tbl' ws'

/-- transform_slots embeds the function of the same name: base slots first,
then override instances with base discovery.  The returned list of pairs is
the collected dangling override warnings (slot name, class name); none means
a base discovery walk ran out of fuel. -/
def transform_slots (expanded_slots : Dict SlotDef)
    (expanded_classes : Dict ClassDef) (pfxs : Dict PrefixDef)
    (net : String → Bool) (fuel : Nat) (st : RunState) :
    Option (Dict PSlot × List (String × String) × RunState) :=
  let p1 := addBaseSlots pfxs net expanded_slots [] st
  match processClassList expanded_classes fuel expanded_classes p1.1 [] with
  | none => none
  | some (tbl, ws) => some (tbl, ws, p1.2)

/-- PAttr is one processed attribute of the output classes table. -/
structure PAttr where
  slotId : String
  range : Option String
  inline : Bool
  required : Option Bool := none
  multivalued : Option Bool := none
  inherited_from : Option String := none
  deriving DecidableEq

/-- PClass is one record of the output classes table. -/
structure PClass where
  id : String
  name : String
  parent : Option String
  abstract : Bool
  attributes : Dict PAttr
  description : Option String := none
  class_url : Option String := none
  deriving DecidableEq

/-- buildClassAttr is the attribute loop body of transform_classes: compute
inherited_from via get_defining_class, pick the slot id depending on whether
a slot_usage override exists, and set the inline flag from membership in the
global slots table.  none = the provenance walk ran out of fuel. -/
def buildClassAttr (classes : Dict ClassDef) (hierarchy : Dict (Option String))
    (global_slots : Dict SlotDef) (fuel : Nat) (class_name attr_name : String)
    (ad : AttrDef) : Option PAttr :=
  match get_defining_class fuel class_name attr_name classes hierarchy with
  | none => none
  | some inherited_from =>
    let ov := find_slot_usage class_name attr_name classes
    let slot_id :=
      if ov.isSome then attr_name ++ "-" ++ class_name else attr_name
    some { slotId := slot_id, range := ad.range,
           inline := !(dcontains global_slots attr_name),
           required := ad.required, multivalued := ad.multivalued,
           inherited_from := inherited_from }

/-- buildAttrList folds buildClassAttr over the merged attributes of one
class, in order. -/
def buildAttrList (classes : Dict ClassDef) (hierarchy : Dict (Option String))
    (global_slots : Dict SlotDef) (fuel : Nat) (class_name : String) :
    List (String × AttrDef) → Option (Dict PAttr)
  | [] => some []
  | (an, ad) :: rest =>
    match buildClassAttr classes hierarchy global_slots fuel class_name an ad with
    | none => none
    | some pa =>
      match buildAttrList classes hierarchy global_slots fuel class_name rest with
      | none => none
      | some tail => some ((an, pa) :: tail)

/-- buildPClass builds the processed record of one class, expanding its
class_uri (with validation) when the field is truthy. -/
def buildPClass (classes : Dict ClassDef) (hierarchy : Dict (Option String))
    (pfxs : Dict PrefixDef) (global_slots : Dict SlotDef)
    (net : String → Bool) (fuel : Nat) (class_name : String) (cd : ClassDef)
    (st : RunState) : Option (PClass × RunState) :=
  match buildAttrList classes hierarchy global_slots fuel class_name cd.attributes with
  | none => none
  | some pattrs =>
    let base : PClass :=
      { id := class_name, name := class_name, parent := cd.is_a,
        abstract := cd.abstract.getD false, attributes := pattrs,
        description := strTruthy cd.description }
    match strTruthy cd.class_uri with
    | none => some (base, st)
    | some u =>
      match expand_uri u pfxs true net st with
      | (some url, st') =>
        if url = "" then some (base, st')
        else some ({ base with class_url := some url }, st')
      | (none, st') => some (base, st')

/-- transform_classes embeds the function of the same name, iterating the
classes in order and threading the expansion state. -/
def transform_classes (classes : Dict ClassDef)
    (hierarchy : Dict (Option String)) (pfxs : Dict PrefixDef)
    (global_slots : Dict SlotDef) (net : String → Bool) (fuel : Nat) :
    List (String × ClassDef) → RunState → Option (Dict PClass × RunState)
  | [], st => some ([], st)
  | (cn, cd) :: rest, st =>
    match buildPClass classes hierarchy pfxs global_slots net fuel cn cd st with
    | none => none
    | some (pc, st') =>
      match transform_classes classes hierarchy pfxs global_slots net fuel rest st' with
      | none => none
      | some (tail, st'') => some ((cn, pc) :: tail, st'')

/-- PermValue embeds one permissible value of an enum. -/
structure PermValue where
  description : Option String := none
  meaning : Option String := none
  deriving DecidableEq

/-- PPermValue is the processed permissible value, with the expanded
meaning_url added when expansion succeeds. -/
structure PPermValue where
  description : Option String := none
  meaning : Option String := none
  meaning_url : Option String := none
  deriving DecidableEq

/-- ReachableFrom embeds the reachable_from block of an enum. -/
structure ReachableFrom where
  source_ontology : Option String := none
  include_self : Option Bool := none
  source_nodes : List String := []
  relationship_types : List String := []
  deriving DecidableEq

/-- PReachable is the processed reachable_from block. -/
structure PReachable where
  source_ontology : Option String := none
  include_self : Option Bool := none
  source_nodes : Option (List String) := none
  source_nodes_urls : Option (List String) := none
  relationship_types : Option (List String) := none
  relationship_types_urls : Option (List String) := none
  deriving DecidableEq

/-- EnumDef embeds one enum of the enums table; include_list is the source
key include (a Lean keyword). -/
structure EnumDef where
  description : Option String := none
  comments : List String := []
  see_also : List String := []
  is_a : Option String := none
  inherits : List String := []
  include_list : List String := []
  permissible_values : Dict PermValue := []
  reachable_from : Option ReachableFrom := none
  deriving DecidableEq

/-- PEnum is one record of the output enums table. -/
structure PEnum where
  id : String
  name : String
  description : Option String := none
  comments : Option (List String) := none
  see_also : Option (List String) := none
  parent : Option String := none
  inherits : Option (List String) := none
  include_list : Option (List String) := none
  permissible_values : Option (Dict PPermValue) := none
  reachable_from : Option PReachable := none
  deriving DecidableEq

/-- expandList expands a list of URIs (with validation), keeping only the
truthy expansions, in order. -/
def expandList (pfxs : Dict PrefixDef) (net : String → Bool) :
    List String → RunState → List String × RunState
  | [], st => ([], st)
  | u :: rest, st =>
    match expand_uri u pfxs true net st with
    | (r, st') =>
      let tail := expandList pfxs net rest st'
      match r with
      | some url => if url = "" then tail else (url :: tail.1, tail.2)
      | none => tail

/-- buildPermValues processes the permissible values of one enum, adding
meaning_url when the meaning field is truthy and expands successfully. -/
def buildPermValues (pfxs : Dict PrefixDef) (net : String → Bool) :
    List (String × PermValue) → RunState → Dict PPermValue × RunState
  | [], st => ([], st)
  | (k, pv) :: rest, st =>
    let step : Option String × RunState :=
      match strTruthy pv.meaning with
      | none => (none, st)
      | some m =>
        match expand_uri m pfxs true net st with
        | (some url, st') => if url = "" then (none, st') else (some url, st')
        | (none, st') => (none, st')
    let tail := buildPermValues pfxs net rest step.2
    ((k, { description := pv.description, meaning := pv.meaning,
           meaning_url := step.1 }) :: tail.1, tail.2)

/-- buildReachable processes the reachable_from block of one enum. -/
def buildReachable (pfxs : Dict PrefixDef) (net : String → Bool)
    (rf : ReachableFrom) (st : RunState) : PReachable × RunState :=
  let base : PReachable :=
    { source_ontology := strTruthy rf.source_ontology,
      include_self := rf.include_self }
  let sn : (Option (List String) × Option (List String)) × RunState :=
    if rf.source_nodes.isEmpty then ((none, none), st)
    else
      let e := expandList pfxs net rf.source_nodes st
      ((some rf.source_nodes, if e.1.isEmpty then none else some e.1), e.2)
  let rt : (Option (List String) × Option (List String)) × RunState :=
    if rf.relationship_types.isEmpty then ((none, none), sn.2)
    else
      let e := expandList pfxs net rf.relationship_types sn.2
      ((some rf.relationship_types, if e.1.isEmpty then none else some e.1), e.2)
  ({ base with
      source_nodes := sn.1.1, source_nodes_urls := sn.1.2,
      relationship_types := rt.1.1, relationship_types_urls := rt.1.2 }, rt.2)

/-- buildPEnum builds the processed record of one enum. -/
def buildPEnum (pfxs : Dict PrefixDef) (net : String → Bool)
    (enum_name : String) (ed : EnumDef) (st : RunState) : PEnum × RunState :=
  let base : PEnum :=
    { id := enum_name, name := enum_name,
      description := strTruthy ed.description,
      comments := if ed.comments.isEmpty then none else some ed.comments,
      see_also := if ed.see_also.isEmpty then none else some ed.see_also,
      parent := strTruthy ed.is_a,
      inherits := if ed.inherits.isEmpty then none else some ed.inherits,
      include_list :=
        if ed.include_list.isEmpty then none else some ed.include_list }
  let pv : Option (Dict PPermValue) × RunState :=
    if ed.permissible_values.isEmpty then (none, st)
    else
      let r := buildPermValues pfxs net ed.permissible_values st
      (some r.1, r.2)
  let rf : Option PReachable × RunState :=
    match ed.reachable_from with
    | none => (none, pv.2)
    | some r =>
      let pr := buildReachable pfxs net r pv.2
      (some pr.1, pr.2)
  ({ base with permissible_values := pv.1, reachable_from := rf.1 }, rf.2)

/-- transform_enums embeds the function of the same name. -/
def transform_enums (pfxs : Dict PrefixDef) (net : String → Bool) :
    List (String × EnumDef) → RunState → Dict PEnum × RunState
  | [], st => ([], st)
  | (en, ed) :: rest, st =>
    let r := buildPEnum pfxs net en ed st
    let tail := transform_enums pfxs net rest r.2
    ((en, r.1) :: tail.1, tail.2)

/-- TypeDef embeds one type of the types table. -/
structure TypeDef where
  description : Option String := none
  base : Option String := none
  uri : Option String := none
  exact_mappings : List String := []
  deriving DecidableEq

/-- PType is one record of the output types table. -/
structure PType where
  id : String
  name : String
  description : Option String := none
  base : Option String := none
  uri : Option String := none
  uri_url : Option String := none
  exact_mappings : Option (List String) := none
  exact_mappings_urls : Option (List String) := none
  deriving DecidableEq

/-- addUsedRange is the body of the used type collection: a range value is
recorded when it is truthy (non empty) and names a declared type. -/
def addUsedRange (types : Dict TypeDef) (acc : List String)
    (r : Option String) : List String :=
  match r with
  | none => acc
  | some rv =>
    if rv = "" then acc
    else if dcontains types rv then setAdd acc rv else acc

/-- collectAttrRanges folds addUsedRange over the attributes of a class. -/
def collectAttrRanges (types : Dict TypeDef) :
    List (String × AttrDef) → List String → List String
  | [], acc => acc
  | (_, ad) :: rest, acc =>
    collectAttrRanges types rest (addUsedRange types acc ad.range)

/-- collectClassRanges folds collectAttrRanges over all classes. -/
def collectClassRanges (types : Dict TypeDef) :
    List (String × ClassDef) → List String → List String
  | [], acc => acc
  | (_, cd) :: rest, acc =>
    collectClassRanges types rest (collectAttrRanges types cd.attributes acc)

/-- collectSlotRanges folds addUsedRange over all global slots. -/
def collectSlotRanges (types : Dict TypeDef) :
    List (String × SlotDef) → List String → List String
  | [], acc => acc
  | (_, sd) :: rest, acc =>
    collectSlotRanges types rest (addUsedRange types acc sd.range)

/-- collect_used_types embeds the function of the same name: the set of type
names used as a range by some class attribute or some global slot. -/
def collect_used_types (classes : Dict ClassDef) (slots : Dict SlotDef)
    (types : Dict TypeDef) : List String :=
  collectSlotRanges types slots (collectClassRanges types classes [])

/-- buildPType builds the processed record of one used type. -/
def buildPType (pfxs : Dict PrefixDef) (net : String → Bool)
    (type_name : String) (td : TypeDef) (st : RunState) : PType × RunState :=
  let base : PType :=
    { id := type_name, name := type_name,
      description := strTruthy td.description, base := strTruthy td.base }
  let uf : (Option String × Option String) × RunState :=
    match strTruthy td.uri with
    | none => ((none, none), st)
    | some u =>
      match expand_uri u pfxs true net st with
      | (some url, st') =>
        if url = "" then ((some u, none), st') else ((some u, some url), st')
      | (none, st') => ((some u, none), st')
  let ef : (Option (List String) × Option (List String)) × RunState :=
    if td.exact_mappings.isEmpty then ((none, none), uf.2)
    else
      let e := expandList pfxs net td.exact_mappings uf.2
      ((some td.exact_mappings, if e.1.isEmpty then none else some e.1), e.2)
  ({ base with
      uri := uf.1.1, uri_url := uf.1.2,
      exact_mappings := ef.1.1, exact_mappings_urls := ef.1.2 }, ef.2)

/-- transform_types embeds the function of the same name: declared types are
emitted in order, skipping any type whose name is not in the used set. -/
def transform_types (pfxs : Dict PrefixDef) (net : String → Bool)
    (used : List String) :
    List (String × TypeDef) → RunState → Dict PType × RunState
  | [], st => ([], st)
  | (tn, td) :: rest, st =>
    if tn ∈ used then
      let r := buildPType pfxs net tn td st
      let tail := transform_types pfxs net used rest r.2
      ((tn, r.1) :: tail.1, tail.2)
    else transform_types pfxs net used rest st

/-- Document is the parsed input of transform_schema: the five tables plus
the opaque pass through block stored under the source key variables (vars here,
since that word is reserved in Lean). -/
structure Document where
  prefixes : Dict PrefixDef := []
  classes : Dict ClassDef := []
  slots : Dict SlotDef := []
  enums : Dict EnumDef := []
  types : Dict TypeDef := []
  vars : Option String := none
  deriving DecidableEq

/-- ProcessedSchema is the assembled output artifact. -/
structure ProcessedSchema where
  prefixes : Dict PrefixDef
  classes : Dict PClass
  slots : Dict PSlot
  enums : Dict PEnum
  types : Dict PType
  vars : Option String := none
  deriving DecidableEq

/-- reset_trackers is the reset performed at the start of transform_schema:
whatever state a previous run left behind is discarded. -/
def reset_trackers (_prior : RunState) : RunState := initRunState

/-- transform_schema_core sequences the whole pipeline from a given tracker
state, in source order: classes, slots, enums, used type collection, types,
assembly.  none models a pipeline stage that did not terminate (fuel). -/
def transform_schema_core (doc : Document) (net : String → Bool) (fuel : Nat)
    (st0 : RunState) : Option (ProcessedSchema × RunState) :=
  let pfxs := doc.prefixes
  let hierarchy := build_class_hierarchy doc.classes
  match transform_classes doc.classes hierarchy pfxs doc.slots net fuel doc.classes st0 with
  | none => none
  | some (pcls, st1) =>
    match transform_slots doc.slots doc.classes pfxs net fuel st1 with
    | none => none
    | some (ptbl, _warns, st2) =>
      let pe := transform_enums pfxs net doc.enums st2
      let used := collect_used_types doc.classes doc.slots doc.types
      let pt := transform_types pfxs net used doc.types pe.2
      some ({ prefixes := pfxs, classes := pcls, slots := ptbl,
              enums := pe.1, types := pt.1,
              vars := doc.vars }, pt.2)

/-- transform_schema_run is one run of the pipeline as invoked in a process
whose trackers currently hold prior: the trackers are reset first, so the
run depends only on the document and the network oracle. -/
def transform_schema_run (prior : RunState) (doc : Document)
    (net : String → Bool) (fuel : Nat) : Option (ProcessedSchema × RunState) :=
  transform_schema_core doc net fuel (reset_trackers prior)

/-- runCalls folds a list of expansion requests (identifier, validate flag)
through expand_uri, modelling the sequence of expansions of one run. -/
def runCalls (pfxs : Dict PrefixDef) (net : String → Bool) :
    List (String × Bool) → RunState → RunState
  | [], st => st
  | c :: rest, st => runCalls pfxs net rest (expand_uri c.1 pfxs c.2 net st).2

/-- StateEvolves relates two states of one run: cached verdicts are
preserved, and the new trace entries are checks of pairwise distinct, newly
cached namespaces whose verdict is the oracle answer for the checked URL. -/
def StateEvolves (net : String → Bool) (st st' : RunState) : Prop :=
  (∀ p b, dget st.validated_prefixes p = some b →
      dget st'.validated_prefixes p = some b)
  ∧ ∃ Δ, st'.trace = st.trace ++ Δ
      ∧ (Δ.map Prod.fst).Nodup
      ∧ ∀ pu ∈ Δ, dget st.validated_prefixes pu.1 = none
          ∧ dget st'.validated_prefixes pu.1 = some (net pu.2)

/-- attrRangeRefs states that some class attribute in the input has the
given string as its range. -/
def attrRangeRefs (classes : Dict ClassDef) (t : String) : Prop :=
  ∃ cn cd an ad, (cn, cd) ∈ classes ∧ (an, ad) ∈ cd.attributes
    ∧ ad.range = some t

/-- slotRangeRefs states that some global slot in the input has the given
string as its range. -/
def slotRangeRefs (slots : Dict SlotDef) (t : String) : Prop :=
  ∃ sn sd, (sn, sd) ∈ slots ∧ sd.range = some t

/-- adString is a small attribute with range string. -/
def adString : AttrDef := { range := some "string" }

/-- adEnum is a small attribute with an enum range. -/
def adEnum : AttrDef := { range := some "SdohCategoryEnum" }

/-- cexC1_classes: class C overrides attribute a; its only ancestor P bears
a in its merged attributes and also overrides a itself, and has no parent,
so no non overriding ancestor bearing a exists. -/
def cexC1_classes : Dict ClassDef :=
  [("C", { is_a := some "P", attributes := [("a", adEnum)],
           slot_usage := [("a", adEnum)] }),
   ("P", { is_a := none, attributes := [("a", adString)],
           slot_usage := [("a", adString)] })]

/-- w2_classes: C inherits attribute a from its parent P. -/
def w2_classes : Dict ClassDef :=
  [("C", { is_a := some "P", attributes := [("a", adEnum)] }),
   ("P", { attributes := [("a", adString)] })]

/-- cexC3_types declares a type whose name is the empty string. -/
def cexC3_types : Dict TypeDef := [("", { description := some "d" })]

/-- cexC3_classes has an attribute whose range is the empty string. -/
def cexC3_classes : Dict ClassDef :=
  [("C", { attributes := [("x", { range := some "" })] })]

/-- w3_types declares a used type T and an unused type U. -/
def w3_types : Dict TypeDef := [("T", {}), ("U", {})]

/-- w3_classes has one attribute of range T. -/
def w3_classes : Dict ClassDef :=
  [("C", { attributes := [("x", { range := some "T" })] })]

/-- pfxsW is a one entry prefix map for concrete runs. -/
def pfxsW : Dict PrefixDef := [("ex", ⟨some "http://x/"⟩)]

/-- callsW is a concrete sequence of expansion requests sharing one
namespace, both with validation requested. -/
def callsW : List (String × Bool) := [("ex:1", true), ("ex:2", true)]

/-- w7_cd is a class with no attributes, so any slot_usage entry on it is
dangling. -/
def w7_cd : ClassDef := { is_a := none, attributes := [] }

/-- w8_classes is a two class chain C below P. -/
def w8_classes : Dict ClassDef :=
  [("C", { is_a := some "P", attributes := [("a", adEnum)],
           slot_usage := [("a", adEnum)] }),
   ("P", { attributes := [("a", adString)] })]

/-- w8_rank is a rank function witnessing acyclicity of w8_classes. -/
def w8_rank : String → Nat := fun c => if c = "C" then 1 else 0

/-- cexC10_slots declares a global slot literally named a-C, colliding with
the override identity of attribute a on class C. -/
def cexC10_slots : Dict SlotDef := [("a-C", { range := some "string" })]

/-- cexC10_classes: class C overrides its local attribute a. -/
def cexC10_classes : Dict ClassDef :=
  [("C", { attributes := [("a", adString)], slot_usage := [("a", adEnum)] })]

/-- w10_slots declares a global slot s that no override identity can
collide with. -/
def w10_slots : Dict SlotDef := [("s", {})]

/-!  Lemmas about the association list embedding of dicts. -/

theorem dget_append_of_some {α : Type} {k : String} {v : α} (e : Dict α) :
    ∀ d : Dict α, dget d k = some v → dget (d ++ e) k = some v := by
  intro d
  induction d with
  | nil => intro h; simp [dget] at h
  | cons a t ih =>
    intro h
    obtain ⟨ak, av⟩ := a
    by_cases hk : ak = k
    · simp [dget, hk] at h ⊢; exact h
    · simp [dget, hk] at h ⊢; exact ih h

theorem dget_append_of_none {α : Type} {k : String} (e : Dict α) :
    ∀ d : Dict α, dget d k = none → dget (d ++ e) k = dget e k := by
  intro d
  induction d with
  | nil => intro _; simp [dget]
  | cons a t ih =>
    intro h
    obtain ⟨ak, av⟩ := a
    by_cases hk : ak = k
    · simp [dget, hk] at h
    · simp [dget, hk] at h ⊢; exact ih h

theorem dget_dinsert_self {α : Type} (k : String) (v : α) :
    ∀ d : Dict α, dget (dinsert d k v) k = some v := by
  intro d
  induction d with
  | nil => simp [dinsert, dget]
  | cons a t ih =>
    obtain ⟨ak, av⟩ := a
    by_cases hk : ak = k
    · simp [dinsert, hk, dget]
    · simp [dinsert, hk, dget, ih]

theorem dget_dinsert_ne {α : Type} {k' k : String} (v : α) (h : k' ≠ k) :
    ∀ d : Dict α, dget (dinsert d k' v) k = dget d k := by
  intro d
  induction d with
  | nil => simp [dinsert, dget, h]
  | cons a t ih =>
    obtain ⟨ak, av⟩ := a
    by_cases hk : ak = k'
    · subst hk
      simp [dinsert, dget, h]
    · simp [dinsert, hk, dget, ih]

theorem dcontains_dinsert_mono {α : Type} (d : Dict α) {k : String}
    (k' : String) (v : α) (h : dcontains d k = true) :
    dcontains (dinsert d k' v) k = true := by
  by_cases hk : k' = k
  · subst hk
    simp [dcontains, dget_dinsert_self]
  · rw [dcontains, dget_dinsert_ne v hk d]
    exact h

theorem dcontains_iff_mem {α : Type} (k : String) :
    ∀ d : Dict α, dcontains d k = true ↔ ∃ v, (k, v) ∈ d := by
  intro d
  induction d with
  | nil => simp [dcontains, dget]
  | cons a t ih =>
    obtain ⟨ak, av⟩ := a
    by_cases hk : ak = k
    · subst hk
      simp [dcontains, dget]
    · simp only [dcontains, dget, if_neg hk] at ih ⊢
      constructor
      · intro h
        obtain ⟨v, hv⟩ := ih.mp h
        exact ⟨v, List.mem_cons_of_mem _ hv⟩
      · intro ⟨v, hv⟩
        rcases List.mem_cons.mp hv with he | ht
        · exact absurd (congrArg Prod.fst he).symm hk
        · exact ih.mpr ⟨v, ht⟩

theorem dget_eq_none_of_not_dcontains {α : Type} {d : Dict α} {k : String}
    (h : dcontains d k = false) : dget d k = none := by
  cases hg : dget d k with
  | none => rfl
  | some w =>
    rw [dcontains, hg] at h
    simp at h

/-- Claim C4: running the full pipeline twice on the same input document
with the same deterministic network oracle produces identical output
artifacts; the process wide trackers are reset at the start of each run, so
whatever state a prior run left behind does not influence the result. -/
theorem claim_C4 (doc : Document) (net : String → Bool) (fuel : Nat)
    (st1 st2 : RunState) :
    transform_schema_run st1 doc net fuel = transform_schema_run st2 doc net fuel :=
  rfl

/-- Claim C6: expanding ex:123 against a map sending ex to the base URL
http:SLASH SLASH x SLASH yields their plain concatenation; expanding zz:1
against an empty map, or against a map whose zz entry lacks the base URL
field, yields no expansion and records zz in the invalid namespaces set. -/
theorem claim_C6 :
    expand_uri "ex:123" [("ex", { prefix_reference := some "http://x/" })]
        false netTrue initRunState = (some "http://x/123", initRunState)
    ∧ (expand_uri "zz:1" [] false netTrue initRunState).1 = none
    ∧ "zz" ∈ (expand_uri "zz:1" [] false netTrue initRunState).2.invalid_prefixes
    ∧ (expand_uri "zz:1" [("zz", { prefix_reference := none })]
        false netTrue initRunState).1 = none
    ∧ "zz" ∈ (expand_uri "zz:1" [("zz", { prefix_reference := none })]
        false netTrue initRunState).2.invalid_prefixes := by
  refine ⟨?_, ?_, ?_, ?_, ?_⟩ <;> decide

/-- Claim C9: an empty identifier, or one containing no colon, makes
expand_uri return no expansion with the run state (invalid namespaces,
validation cache, check trace) completely unchanged; no precondition on the
identifier shape is needed for the operation to be total. -/
theorem claim_C9 (uri : String) (pfxs : Dict PrefixDef) (validate : Bool)
    (net : String → Bool) (st : RunState)
    (h : uri = "" ∨ splitFirstColon uri = none) :
    expand_uri uri pfxs validate net st = (none, st) := by
  rcases h with h | h
  · simp [expand_uri, h]
  · unfold expand_uri
    by_cases h0 : uri = ""
    · simp [h0]
    · simp [h0, h]

/-- Witness for claim C9 at the colon free identifier abc. -/
theorem claim_C9_witness :
    expand_uri "abc" [] true netTrue initRunState = (none, initRunState) :=
  claim_C9 "abc" [] true netTrue initRunState (Or.inr (by decide))

/-- Claim C7: a slot_usage entry whose attribute name is absent from the
owning class merged attributes emits nothing into the output field table
(the table is returned unchanged, so in particular no override identity for
this entry is added), appends a dangling override warning, and processing
continues with the remaining entries against the unchanged table. -/
theorem claim_C7 (classes : Dict ClassDef) (fuel : Nat) (cn : String)
    (cd : ClassDef) (tbl : Dict PSlot) (ws : List (String × String))
    (sn : String) (ov : AttrDef) (rest : List (String × AttrDef))
    (h : dget cd.attributes sn = none) :
    processUsageEntry classes fuel cn cd tbl ws sn = some (tbl, ws ++ [(sn, cn)])
    ∧ processUsageList classes fuel cn cd ((sn, ov) :: rest) tbl ws
        = processUsageList classes fuel cn cd rest tbl (ws ++ [(sn, cn)]) := by
  constructor
  · simp [processUsageEntry, h]
  · simp [processUsageList, processUsageEntry, h]

/-- Witness for claim C7: a dangling override on a class with no
attributes. -/
theorem claim_C7_witness :
    processUsageEntry [] 1 "C" w7_cd [] [] "a" = some ([], [("a", "C")])
    ∧ processUsageList [] 1 "C" w7_cd [("a", adEnum)] [] []
        = processUsageList [] 1 "C" w7_cd [] [] [("a", "C")] :=
  claim_C7 [] 1 "C" w7_cd [] [] "a" adEnum [] (by decide)

/-- Claim C1 counterexample: in cexC1_classes the overriding class C has a
single ancestor P; P bears the attribute a in its merged set and also
overrides a itself, and has no parent, so no non overriding ancestor bearing
a exists — yet the output field table does contain a synthesized base record
under the key a (built from the merged definition of the overriding ancestor
P), contradicting the claim that no base record is synthesized then. -/
theorem claim_C1_counterexample :
    (transform_slots [] cexC1_classes [] netTrue 3 initRunState).map
        (fun r => dcontains r.1 "a") = some true
    ∧ (dget cexC1_classes "C").map ClassDef.is_a = some (some "P")
    ∧ containsAttr cexC1_classes "P" "a" = true
    ∧ (dget cexC1_classes "P").map (fun cd => dcontains cd.slot_usage "a")
        = some true
    ∧ (dget cexC1_classes "P").map ClassDef.is_a = some none := by
  refine ⟨?_, ?_, ?_, ?_, ?_⟩ <;> decide

/-- Claim C1 amended: whenever the base discovery walk of the Override
Materializer terminates, its result is exactly baseFromChain over the walked
ancestor chain: ancestors not bearing the attribute are skipped; the first
ancestor bearing it without overriding it supplies the base metadata; an
ancestor bearing and overriding it is remembered and climbed past, and if
the chain ends with only such overriding bearers seen, the most recently
remembered merged definition supplies the base record; only when no walked
ancestor bears the attribute at all is no base record synthesized. -/
theorem claim_C1_amended (classes : Dict ClassDef) (slot_name : String) :
    ∀ fuel pn acc r, baseWalk classes slot_name fuel pn acc = some r →
      r = baseFromChain slot_name (chainList classes fuel pn) acc := by
  intro fuel
  induction fuel with
  | zero => intro pn acc r h; simp [baseWalk] at h
  | succ f ih =>
    intro pn acc r h
    cases pn with
    | none =>
      simp [baseWalk] at h
      simp [chainList, baseFromChain, h]
    | some s =>
      by_cases hs : s = ""
      · simp [baseWalk, hs] at h
        simp [chainList, hs, baseFromChain, h]
      · cases hg : dget classes s with
        | none =>
          simp [baseWalk, hs, hg] at h
          simp [chainList, hs, hg, baseFromChain, h]
        | some pc =>
          cases ha : dget pc.attributes slot_name with
          | none =>
            simp only [baseWalk, if_neg hs, hg, ha] at h
            simp only [chainList, if_neg hs, hg, baseFromChain, ha]
            exact ih pc.is_a acc r h
          | some a =>
            by_cases hov : dcontains pc.slot_usage slot_name = true
            · simp only [baseWalk, if_neg hs, hg, ha, if_pos hov] at h
              simp only [chainList, if_neg hs, hg, baseFromChain, ha, if_pos hov]
              exact ih pc.is_a (some a) r h
            · simp only [baseWalk, if_neg hs, hg, ha, if_neg hov] at h
              simp only [chainList, if_neg hs, hg, baseFromChain, ha, if_neg hov]
              exact (Option.some.inj h).symm

/-- Witness for the amended claim C1 on the concrete two class chain. -/
theorem claim_C1_amended_witness :
    some adString = baseFromChain "a" (chainList cexC1_classes 3 (some "P")) none :=
  claim_C1_amended cexC1_classes "a" 3 (some "P") none (some adString) (by decide)

/-- gdcWalk_sound: a finished provenance walk returns either its starting
class or a class reachable along the parent chain whose merged attributes
contain the attribute; in either case the stopping condition means that the
parent of the returned class, if any, does not bear the attribute. -/
theorem gdcWalk_sound (classes : Dict ClassDef)
    (hierarchy : Dict (Option String)) (attr : String) :
    ∀ fuel current final,
      gdcWalk classes hierarchy attr fuel current (hget hierarchy current) = some final →
      (final = current
        ∨ ((∃ n, 0 < n ∧ chainN hierarchy n current = some final)
            ∧ containsAttr classes final attr = true))
      ∧ (∀ p, hget hierarchy final = some p → containsAttr classes p attr = false) := by
  intro fuel
  induction fuel with
  | zero => intro current final h; simp [gdcWalk] at h
  | succ f ih =>
    intro current final h
    cases hp : hget hierarchy current with
    | none =>
      rw [hp] at h
      simp [gdcWalk] at h
      subst h
      refine ⟨Or.inl rfl, fun p hpp => ?_⟩
      rw [hp] at hpp
      exact absurd hpp (by simp)
    | some p =>
      rw [hp] at h
      cases hc : dget classes p with
      | none =>
        simp only [gdcWalk, hc] at h
        injection h with h
        subst h
        refine ⟨Or.inl rfl, fun q hq => ?_⟩
        rw [hp] at hq
        injection hq with hq
        subst hq
        simp [containsAttr, hc]
      | some pd =>
        by_cases hattr : dcontains pd.attributes attr = true
        · simp only [gdcWalk, hc, if_pos hattr] at h
          obtain ⟨hfin, hstop⟩ := ih p final h
          refine ⟨?_, hstop⟩
          rcases hfin with rfl | ⟨⟨n, hn, hchain⟩, hcont⟩
          · refine Or.inr ⟨⟨1, Nat.one_pos, ?_⟩, ?_⟩
            · simp [chainN, hp]
            · simp [containsAttr, hc, hattr]
          · refine Or.inr ⟨⟨n + 1, Nat.succ_pos n, ?_⟩, hcont⟩
            simp [chainN, hp, hchain]
        · simp only [gdcWalk, hc, if_neg hattr] at h
          injection h with h
          subst h
          refine ⟨Or.inl rfl, fun q hq => ?_⟩
          rw [hp] at hq
          injection hq with hq
          subst hq
          simp [containsAttr, hc]
          exact eq_false_of_ne_true hattr

/-- Claim C2: whenever get_defining_class finishes and returns an ancestor
name, that name is a proper ancestor of the queried class reached along the
parent map, its own merged attribute set contains the attribute, and its
parent (when the class exists in the map) does not contain the attribute in
its merged set. -/
theorem claim_C2 (classes : Dict ClassDef) (hierarchy : Dict (Option String))
    (fuel : Nat) (class_name attr : String) (anc : String)
    (hmem : containsAttr classes class_name attr = true)
    (h : get_defining_class fuel class_name attr classes hierarchy = some (some anc)) :
    anc ≠ class_name
    ∧ (∃ n, 0 < n ∧ chainN hierarchy n class_name = some anc)
    ∧ containsAttr classes anc attr = true
    ∧ ∀ p, hget hierarchy anc = some p → containsAttr classes p attr = false := by
  unfold get_defining_class at h
  cases hp : hget hierarchy class_name with
  | none => rw [hp] at h; simp at h
  | some p =>
    rw [hp] at h
    dsimp only at h
    cases hw : gdcWalk classes hierarchy attr fuel class_name (some p) with
    | none => rw [hw] at h; simp at h
    | some current =>
      rw [hw] at h
      dsimp only at h
      by_cases hcur : current = class_name
      · rw [if_pos hcur] at h; simp at h
      · rw [if_neg hcur] at h
        injection h with h
        injection h with h
        subst h
        have hw' : gdcWalk classes hierarchy attr fuel class_name
            (hget hierarchy class_name) = some current := by rw [hp]; exact hw
        obtain ⟨hfin, hstop⟩ := gdcWalk_sound classes hierarchy attr fuel class_name current hw'
        rcases hfin with rfl | ⟨hreach, hcont⟩
        · exact absurd rfl hcur
        · exact ⟨hcur, hreach, hcont, hstop⟩

/-- Witness for claim C2: C inherits a from P, and get_defining_class
reports P with the stated ancestor properties. -/
theorem claim_C2_witness :
    "P" ≠ "C"
    ∧ (∃ n, 0 < n ∧ chainN (build_class_hierarchy w2_classes) n "C" = some "P")
    ∧ containsAttr w2_classes "P" "a" = true
    ∧ ∀ p, hget (build_class_hierarchy w2_classes) "P" = some p →
        containsAttr w2_classes p "a" = false :=
  claim_C2 w2_classes (build_class_hierarchy w2_classes) 3 "C" "a" "P"
    (by decide) (by decide)

/-- dget on the built hierarchy is the is_a field of the class record. -/
theorem dget_build_class_hierarchy (c : String) :
    ∀ classes : Dict ClassDef,
      dget (build_class_hierarchy classes) c = (dget classes c).map ClassDef.is_a := by
  intro classes
  induction classes with
  | nil => simp [build_class_hierarchy, dget]
  | cons a t ih =>
    obtain ⟨ak, av⟩ := a
    by_cases hk : ak = c
    · simp [build_class_hierarchy, dget, hk]
    · simp only [build_class_hierarchy, List.map_cons] at ih ⊢
      simp [dget, hk, ih]

/-- hget on the built hierarchy is the is_a field of the class record. -/
theorem hget_build (classes : Dict ClassDef) (c : String) :
    hget (build_class_hierarchy classes) c = (dget classes c).bind ClassDef.is_a := by
  rw [hget, dget_build_class_hierarchy]
  cases dget classes c <;> rfl

/-- gdcWalk_term: with a rank function decreasing along the parent map, the
provenance walk finishes within any fuel exceeding the rank of the start. -/
theorem gdcWalk_term (classes : Dict ClassDef)
    (hierarchy : Dict (Option String)) (attr : String) (rank : String → Nat)
    (hacyc : ∀ c p, hget hierarchy c = some p → rank p < rank c) :
    ∀ fuel current, rank current < fuel →
      gdcWalk classes hierarchy attr fuel current (hget hierarchy current) ≠ none := by
  intro fuel
  induction fuel with
  | zero => intro current h; exact absurd h (Nat.not_lt_zero _)
  | succ f ih =>
    intro current h
    cases hp : hget hierarchy current with
    | none => simp [gdcWalk]
    | some p =>
      cases hc : dget classes p with
      | none => simp [gdcWalk, hc]
      | some pd =>
        by_cases hattr : dcontains pd.attributes attr = true
        · simp only [gdcWalk, hc, if_pos hattr]
          apply ih p
          have := hacyc current p hp
          omega
        · simp [gdcWalk, hc, if_neg hattr]

/-- baseWalk_term: with a rank function decreasing along the parent links
of the classes, the base discovery walk finishes within any positive fuel
exceeding the rank of the start by more than one. -/
theorem baseWalk_term (classes : Dict ClassDef) (slot_name : String)
    (rank : String → Nat)
    (hacyc : ∀ c p, hget (build_class_hierarchy classes) c = some p →
        rank p < rank c) :
    ∀ fuel pn acc, 0 < fuel → (∀ s, pn = some s → rank s + 1 < fuel) →
      baseWalk classes slot_name fuel pn acc ≠ none := by
  intro fuel
  induction fuel with
  | zero => intro pn acc h0 _; exact absurd h0 (lt_irrefl 0)
  | succ f ih =>
    intro pn acc _ hr
    cases pn with
    | none => simp [baseWalk]
    | some s =>
      by_cases hs : s = ""
      · simp [baseWalk, hs]
      · cases hg : dget classes s with
        | none => simp [baseWalk, hs, hg]
        | some pc =>
          have hrs : rank s + 1 < f + 1 := hr s rfl
          have hstep : ∀ nxt, pc.is_a = some nxt → rank nxt < rank s := by
            intro nxt hnxt
            apply hacyc s nxt
            rw [hget_build, hg]
            simp [hnxt]
          cases ha : dget pc.attributes slot_name with
          | none =>
            simp only [baseWalk, if_neg hs, hg, ha]
            apply ih pc.is_a acc
            · omega
            · intro s' hs'
              have := hstep s' hs'
              omega
          | some a =>
            by_cases hov : dcontains pc.slot_usage slot_name = true
            · simp only [baseWalk, if_neg hs, hg, ha, if_pos hov]
              apply ih pc.is_a (some a)
              · omega
              · intro s' hs'
                have := hstep s' hs'
                omega
            · simp [baseWalk, if_neg hs, hg, ha, if_neg hov]

/-- Claim C8: whenever the class parent graph is acyclic, witnessed by a
rank function strictly decreasing along parent links, both parent chain
walks terminate: get_defining_class finishes for every class and attribute
given fuel above the rank of the class, and the base discovery walk of the
Override Materializer finishes for every starting parent given fuel above
its rank plus one. -/
theorem claim_C8 (classes : Dict ClassDef) (rank : String → Nat)
    (hacyc : ∀ c p, hget (build_class_hierarchy classes) c = some p →
        rank p < rank c) :
    (∀ fuel cn attr, rank cn < fuel →
        get_defining_class fuel cn attr classes (build_class_hierarchy classes) ≠ none)
    ∧ (∀ fuel slot_name pn acc, 0 < fuel →
        (∀ s, pn = some s → rank s + 1 < fuel) →
        baseWalk classes slot_name fuel pn acc ≠ none) := by
  constructor
  · intro fuel cn attr hf
    unfold get_defining_class
    cases hp : hget (build_class_hierarchy classes) cn with
    | none => simp
    | some p =>
      dsimp only
      cases hw : gdcWalk classes (build_class_hierarchy classes) attr fuel cn (some p) with
      | none =>
        exfalso
        apply gdcWalk_term classes (build_class_hierarchy classes) attr rank hacyc fuel cn hf
        rw [hp]
        exact hw
      | some current => simp
  · intro fuel slot_name pn acc h0 hr
    exact baseWalk_term classes slot_name rank hacyc fuel pn acc h0 hr

/-- Witness for claim C8 on the concrete two class chain w8_classes with
rank function w8_rank. -/
theorem claim_C8_witness :
    get_defining_class 2 "C" "a" w8_classes (build_class_hierarchy w8_classes) ≠ none
    ∧ baseWalk w8_classes "a" 3 (some "P") none ≠ none := by
  have hacyc : ∀ c p, hget (build_class_hierarchy w8_classes) c = some p →
      w8_rank p < w8_rank c := by
    intro c p h
    by_cases h1 : c = "C"
    · subst h1
      have he : hget (build_class_hierarchy w8_classes) "C" = some "P" := by decide
      rw [he] at h
      injection h with h
      subst h
      decide
    · by_cases h2 : c = "P"
      · subst h2
        have he : hget (build_class_hierarchy w8_classes) "P" = none := by decide
        rw [he] at h
        exact Option.noConfusion h
      · have h1' : ¬("C" = c) := fun he => h1 he.symm
        have h2' : ¬("P" = c) := fun he => h2 he.symm
        have he : hget (build_class_hierarchy w8_classes) c = none := by
          simp [w8_classes, build_class_hierarchy, hget, dget, h1', h2']
        rw [he] at h
        exact Option.noConfusion h
  have H := claim_C8 w8_classes w8_rank hacyc
  refine ⟨H.1 2 "C" "a" (by decide), H.2 3 "a" (some "P") none (by decide) ?_⟩
  intro s hs
  injection hs with hs
  subst hs
  decide

/-- expand_uri_step: one expansion either leaves the trace and the cache
unchanged, or performs exactly one check on a namespace that had no cached
verdict, appending it to the trace and caching the oracle verdict. -/
theorem expand_uri_step (uri : String) (pfxs : Dict PrefixDef)
    (validate : Bool) (net : String → Bool) (st : RunState) :
    ((expand_uri uri pfxs validate net st).2.trace = st.trace
      ∧ (expand_uri uri pfxs validate net st).2.validated_prefixes
          = st.validated_prefixes)
    ∨ ∃ pfx u, (expand_uri uri pfxs validate net st).2.trace = st.trace ++ [(pfx, u)]
        ∧ dcontains st.validated_prefixes pfx = false
        ∧ (expand_uri uri pfxs validate net st).2.validated_prefixes
            = dinsert st.validated_prefixes pfx (net u) := by
  unfold expand_uri
  by_cases h0 : uri = ""
  · simp [h0]
  · rw [if_neg h0]
    cases hs : splitFirstColon uri with
    | none => simp
    | some pc =>
      obtain ⟨pfx, code⟩ := pc
      dsimp only
      cases hg : dget pfxs pfx with
      | none => simp
      | some pd =>
        dsimp only
        cases hr : pd.prefix_reference with
        | none => simp
        | some base_url =>
          dsimp only
          by_cases hv : (validate && !(dcontains st.validated_prefixes pfx)) = true
          · rw [if_pos hv]
            right
            refine ⟨pfx, base_url ++ code, rfl, ?_, rfl⟩
            rcases Bool.and_eq_true_iff.mp hv with ⟨_, hnc⟩
            simpa using hnc
          · rw [if_neg hv]
            left
            exact ⟨rfl, rfl⟩

/-- One expansion preserves every cached verdict. -/
theorem expand_uri_validated_mono (uri : String) (pfxs : Dict PrefixDef)
    (validate : Bool) (net : String → Bool) (st : RunState) (p : String)
    (b : Bool) (h : dget st.validated_prefixes p = some b) :
    dget (expand_uri uri pfxs validate net st).2.validated_prefixes p = some b := by
  rcases expand_uri_step uri pfxs validate net st with ⟨_, hval⟩ | ⟨pfx, u, _, hfalse, hval⟩
  · rw [hval]; exact h
  · rw [hval]
    have hne : pfx ≠ p := by
      intro he
      subst he
      rw [dget_eq_none_of_not_dcontains hfalse] at h
      exact Option.noConfusion h
    rw [dget_dinsert_ne (net u) hne st.validated_prefixes]
    exact h

/-- StateEvolves is reflexive. -/
theorem evolves_refl (net : String → Bool) (st : RunState) :
    StateEvolves net st st := by
  refine ⟨fun p b h => h, [], by simp, by simp, by simp⟩

/-- StateEvolves composes. -/
theorem evolves_trans (net : String → Bool) {st st1 st2 : RunState}
    (h1 : StateEvolves net st st1) (h2 : StateEvolves net st1 st2) :
    StateEvolves net st st2 := by
  obtain ⟨m1, d1, t1, n1, e1⟩ := h1
  obtain ⟨m2, d2, t2, n2, e2⟩ := h2
  refine ⟨fun p b h => m2 p b (m1 p b h), d1 ++ d2, ?_, ?_, ?_⟩
  · rw [t2, t1, List.append_assoc]
  · rw [List.map_append, List.nodup_append]
    refine ⟨n1, n2, ?_⟩
    intro x hx1 hx2
    obtain ⟨⟨p1, u1⟩, hm1, he1⟩ := List.mem_map.mp hx1
    obtain ⟨⟨p2, u2⟩, hm2, he2⟩ := List.mem_map.mp hx2
    have hs1 := (e1 _ hm1).2
    have hs2 := (e2 _ hm2).1
    rw [he1] at hs1
    rw [he2] at hs2
    rw [hs2] at hs1
    exact Option.noConfusion hs1
  · intro pu hpu
    rcases List.mem_append.mp hpu with hm | hm
    · exact ⟨(e1 pu hm).1, m2 _ _ (e1 pu hm).2⟩
    · refine ⟨?_, (e2 pu hm).2⟩
      cases hg : dget st.validated_prefixes pu.1 with
      | none => rfl
      | some b =>
        have := m1 _ _ hg
        rw [(e2 pu hm).1] at this
        exact Option.noConfusion this

/-- One expansion is a StateEvolves step. -/
theorem evolves_step (net : String → Bool) (uri : String)
    (pfxs : Dict PrefixDef) (validate : Bool) (st : RunState) :
    StateEvolves net st (expand_uri uri pfxs validate net st).2 := by
  rcases expand_uri_step uri pfxs validate net st with ⟨htr, hval⟩ | ⟨pfx, u, htr, hfalse, hval⟩
  · refine ⟨fun p b h => by rw [hval]; exact h, [], by simp [htr], by simp, by simp⟩
  · refine ⟨?_, [(pfx, u)], htr, by simp, ?_⟩
    · intro p b h
      exact expand_uri_validated_mono uri pfxs validate net st p b h
    · intro pu hpu
      rcases List.mem_singleton.mp hpu with rfl
      refine ⟨dget_eq_none_of_not_dcontains hfalse, ?_⟩
      rw [hval]
      exact dget_dinsert_self pfx (net u) st.validated_prefixes

/-- Any sequence of expansions is a StateEvolves step. -/
theorem runCalls_evolves (pfxs : Dict PrefixDef) (net : String → Bool) :
    ∀ calls st, StateEvolves net st (runCalls pfxs net calls st) := by
  intro calls
  induction calls with
  | nil => intro st; exact evolves_refl net st
  | cons c rest ih =>
    intro st
    exact evolves_trans net (evolves_step net c.1 pfxs c.2 st)
      (ih (expand_uri c.1 pfxs c.2 net st).2)

/-- Claim C5: within one run, at most one network check is issued per
namespace.  Part one: over any call sequence from the reset state, the
namespaces in the check trace are pairwise distinct, and each checked
namespace ends up cached with the oracle verdict for the checked URL.
Part two: the first validated expansion of a namespace with no cached
verdict issues exactly one check, against that expanded URL, and caches the
verdict keyed by the namespace.  Part three: an expansion whose namespace
already has a cached verdict returns the expansion reusing the cache and
changes nothing: no further check is ever issued for that namespace. -/
theorem claim_C5 (pfxs : Dict PrefixDef) (net : String → Bool) :
    (∀ calls,
        ((runCalls pfxs net calls initRunState).trace.map Prod.fst).Nodup
      ∧ ∀ p u, (p, u) ∈ (runCalls pfxs net calls initRunState).trace →
          dget (runCalls pfxs net calls initRunState).validated_prefixes p
            = some (net u))
    ∧ (∀ uri st pfx code pd base_url,
        splitFirstColon uri = some (pfx, code) →
        dget pfxs pfx = some pd →
        pd.prefix_reference = some base_url →
        dcontains st.validated_prefixes pfx = false →
          (expand_uri uri pfxs true net st).1 = some (base_url ++ code)
        ∧ (expand_uri uri pfxs true net st).2.trace
            = st.trace ++ [(pfx, base_url ++ code)]
        ∧ dget (expand_uri uri pfxs true net st).2.validated_prefixes pfx
            = some (net (base_url ++ code)))
    ∧ (∀ uri st pfx code pd base_url,
        splitFirstColon uri = some (pfx, code) →
        dget pfxs pfx = some pd →
        pd.prefix_reference = some base_url →
        dcontains st.validated_prefixes pfx = true →
          (expand_uri uri pfxs true net st).1 = some (base_url ++ code)
        ∧ (expand_uri uri pfxs true net st).2 = st) := by
  refine ⟨?_, ?_, ?_⟩
  · intro calls
    obtain ⟨mono, d, htr, hnd, hmem⟩ := runCalls_evolves pfxs net calls initRunState
    have htr' : (runCalls pfxs net calls initRunState).trace = d := by
      simpa [initRunState] using htr
    constructor
    · rw [htr']; exact hnd
    · intro p u hm
      rw [htr'] at hm
      exact (hmem (p, u) hm).2
  · intro uri st pfx code pd base_url hsplit hg hr hnc
    have h0 : uri ≠ "" := by
      intro he
      subst he
      rw [show splitFirstColon "" = none from rfl] at hsplit
      exact Option.noConfusion hsplit
    have hv : (true && !(dcontains st.validated_prefixes pfx)) = true := by
      simp [hnc]
    unfold expand_uri
    rw [if_neg h0, hsplit]
    dsimp only
    rw [hg]
    dsimp only
    rw [hr]
    dsimp only
    rw [if_pos hv]
    refine ⟨rfl, rfl, ?_⟩
    exact dget_dinsert_self pfx (net (base_url ++ code)) st.validated_prefixes
  · intro uri st pfx code pd base_url hsplit hg hr hc
    have h0 : uri ≠ "" := by
      intro he
      subst he
      rw [show splitFirstColon "" = none from rfl] at hsplit
      exact Option.noConfusion hsplit
    have hv : (true && !(dcontains st.validated_prefixes pfx)) = false := by
      simp [hc]
    unfold expand_uri
    rw [if_neg h0, hsplit]
    dsimp only
    rw [hg]
    dsimp only
    rw [hr]
    dsimp only
    rw [if_neg (by simp [hv])]
    exact ⟨rfl, rfl⟩

/-- Witness for claim C5: a concrete run with two validated expansions of
the same namespace has a duplicate free check trace, and the first call
from the reset state issues its single check against the first URL. -/
theorem claim_C5_witness :
    ((runCalls pfxsW netTrue callsW initRunState).trace.map Prod.fst).Nodup
    ∧ (expand_uri "ex:1" pfxsW true netTrue initRunState).1
        = some ("http://x/" ++ "1")
    ∧ (expand_uri "ex:1" pfxsW true netTrue initRunState).2.trace
        = initRunState.trace ++ [("ex", "http://x/" ++ "1")] := by
  have H := claim_C5 pfxsW netTrue
  have h2 := H.2.1 "ex:1" initRunState "ex" "1" ⟨some "http://x/"⟩ "http://x/"
    (by decide) (by decide) (by decide) (by decide)
  exact ⟨(H.1 callsW).1, h2.1, h2.2.1⟩

/-- Membership in setAdd. -/
theorem mem_setAdd (s : List String) (x y : String) :
    y ∈ setAdd s x ↔ y ∈ s ∨ y = x := by
  unfold setAdd
  by_cases h : x ∈ s
  · rw [if_pos h]
    constructor
    · exact Or.inl
    · rintro (hy | rfl)
      · exact hy
      · exact h
  · rw [if_neg h]
    simp [List.mem_append]

/-- Membership after recording one range value. -/
theorem mem_addUsedRange (types : Dict TypeDef) (acc : List String)
    (r : Option String) (y : String) :
    y ∈ addUsedRange types acc r ↔
      y ∈ acc ∨ (r = some y ∧ ¬(y = "") ∧ dcontains types y = true) := by
  cases r with
  | none => simp [addUsedRange]
  | some rv =>
    unfold addUsedRange
    dsimp only
    by_cases h1 : rv = ""
    · rw [if_pos h1]
      constructor
      · exact Or.inl
      · rintro (hy | ⟨he, hne, _⟩)
        · exact hy
        · injection he with he
          subst h1
          exact absurd he.symm hne
    · rw [if_neg h1]
      by_cases h2 : dcontains types rv = true
      · rw [if_pos h2, mem_setAdd]
        constructor
        · rintro (hy | rfl)
          · exact Or.inl hy
          · exact Or.inr ⟨rfl, h1, h2⟩
        · rintro (hy | ⟨he, _, _⟩)
          · exact Or.inl hy
          · injection he with he
            exact Or.inr he.symm
      · rw [if_neg h2]
        constructor
        · exact Or.inl
        · rintro (hy | ⟨he, _, hc⟩)
          · exact hy
          · injection he with he
            subst he
            exact absurd hc h2

/-- Membership after folding the attribute ranges of one class. -/
theorem mem_collectAttrRanges (types : Dict TypeDef) (y : String) :
    ∀ (l : List (String × AttrDef)) (acc : List String),
      y ∈ collectAttrRanges types l acc ↔
        y ∈ acc ∨ ∃ an ad, (an, ad) ∈ l ∧ ad.range = some y
          ∧ ¬(y = "") ∧ dcontains types y = true := by
  intro l
  induction l with
  | nil => intro acc; simp [collectAttrRanges]
  | cons a rest ih =>
    intro acc
    obtain ⟨an0, ad0⟩ := a
    simp only [collectAttrRanges]
    rw [ih, mem_addUsedRange]
    constructor
    · rintro ((hy | ⟨hr, hne, hc⟩) | ⟨an, ad, hm, hr, hne, hc⟩)
      · exact Or.inl hy
      · exact Or.inr ⟨an0, ad0, List.mem_cons_self _ _, hr, hne, hc⟩
      · exact Or.inr ⟨an, ad, List.mem_cons_of_mem _ hm, hr, hne, hc⟩
    · rintro (hy | ⟨an, ad, hm, hr, hne, hc⟩)
      · exact Or.inl (Or.inl hy)
      · rcases List.mem_cons.mp hm with he | ht
        · injection he with h1 h2
          subst h1
          subst h2
          exact Or.inl (Or.inr ⟨hr, hne, hc⟩)
        · exact Or.inr ⟨an, ad, ht, hr, hne, hc⟩

/-- Membership after folding the attribute ranges of all classes. -/
theorem mem_collectClassRanges (types : Dict TypeDef) (y : String) :
    ∀ (l : List (String × ClassDef)) (acc : List String),
      y ∈ collectClassRanges types l acc ↔
        y ∈ acc ∨ ∃ cn cd an ad, (cn, cd) ∈ l ∧ (an, ad) ∈ cd.attributes
          ∧ ad.range = some y ∧ ¬(y = "") ∧ dcontains types y = true := by
  intro l
  induction l with
  | nil => intro acc; simp [collectClassRanges]
  | cons a rest ih =>
    intro acc
    obtain ⟨cn0, cd0⟩ := a
    simp only [collectClassRanges]
    rw [ih, mem_collectAttrRanges]
    constructor
    · rintro ((hy | ⟨an, ad, hm, hr, hne, hc⟩) | ⟨cn, cd, an, ad, hm, hma, hr, hne, hc⟩)
      · exact Or.inl hy
      · exact Or.inr ⟨cn0, cd0, an, ad, List.mem_cons_self _ _, hm, hr, hne, hc⟩
      · exact Or.inr ⟨cn, cd, an, ad, List.mem_cons_of_mem _ hm, hma, hr, hne, hc⟩
    · rintro (hy | ⟨cn, cd, an, ad, hm, hma, hr, hne, hc⟩)
      · exact Or.inl (Or.inl hy)
      · rcases List.mem_cons.mp hm with he | ht
        · injection he with h1 h2
          subst h1
          subst h2
          exact Or.inl (Or.inr ⟨an, ad, hma, hr, hne, hc⟩)
        · exact Or.inr ⟨cn, cd, an, ad, ht, hma, hr, hne, hc⟩

/-- Membership after folding the global slot ranges. -/
theorem mem_collectSlotRanges (types : Dict TypeDef) (y : String) :
    ∀ (l : List (String × SlotDef)) (acc : List String),
      y ∈ collectSlotRanges types l acc ↔
        y ∈ acc ∨ ∃ sn sd, (sn, sd) ∈ l ∧ sd.range = some y
          ∧ ¬(y = "") ∧ dcontains types y = true := by
  intro l
  induction l with
  | nil => intro acc; simp [collectSlotRanges]
  | cons a rest ih =>
    intro acc
    obtain ⟨sn0, sd0⟩ := a
    simp only [collectSlotRanges]
    rw [ih, mem_addUsedRange]
    constructor
    · rintro ((hy | ⟨hr, hne, hc⟩) | ⟨sn, sd, hm, hr, hne, hc⟩)
      · exact Or.inl hy
      · exact Or.inr ⟨sn0, sd0, List.mem_cons_self _ _, hr, hne, hc⟩
      · exact Or.inr ⟨sn, sd, List.mem_cons_of_mem _ hm, hr, hne, hc⟩
    · rintro (hy | ⟨sn, sd, hm, hr, hne, hc⟩)
      · exact Or.inl (Or.inl hy)
      · rcases List.mem_cons.mp hm with he | ht
        · injection he with h1 h2
          subst h1
          subst h2
          exact Or.inl (Or.inr ⟨hr, hne, hc⟩)
        · exact Or.inr ⟨sn, sd, ht, hr, hne, hc⟩

/-- A name is a used type exactly when it is non empty, declared, and the
range of some class attribute or some global slot. -/
theorem mem_collect_used (classes : Dict ClassDef) (slots : Dict SlotDef)
    (types : Dict TypeDef) (y : String) :
    y ∈ collect_used_types classes slots types ↔
      ¬(y = "") ∧ dcontains types y = true
        ∧ (attrRangeRefs classes y ∨ slotRangeRefs slots y) := by
  unfold collect_used_types attrRangeRefs slotRangeRefs
  rw [mem_collectSlotRanges, mem_collectClassRanges]
  constructor
  · rintro ((hy | ⟨cn, cd, an, ad, hm, hma, hr, hne, hc⟩) | ⟨sn, sd, hm, hr, hne, hc⟩)
    · exact absurd hy (List.not_mem_nil y)
    · exact ⟨hne, hc, Or.inl ⟨cn, cd, an, ad, hm, hma, hr⟩⟩
    · exact ⟨hne, hc, Or.inr ⟨sn, sd, hm, hr⟩⟩
  · rintro ⟨hne, hc, ⟨cn, cd, an, ad, hm, hma, hr⟩ | ⟨sn, sd, hm, hr⟩⟩
    · exact Or.inl (Or.inr ⟨cn, cd, an, ad, hm, hma, hr, hne, hc⟩)
    · exact Or.inr ⟨sn, sd, hm, hr, hne, hc⟩

/-- A type name is a key of the transform_types output exactly when it is
declared in the input types and in the used set. -/
theorem dcontains_transform_types (pfxs : Dict PrefixDef)
    (net : String → Bool) (used : List String) (t : String) :
    ∀ (l : List (String × TypeDef)) (st : RunState),
      dcontains (transform_types pfxs net used l st).1 t = true ↔
        (∃ td, (t, td) ∈ l) ∧ t ∈ used := by
  intro l
  induction l with
  | nil => intro st; simp [transform_types, dcontains, dget]
  | cons a rest ih =>
    intro st
    obtain ⟨tn, td⟩ := a
    simp only [transform_types]
    by_cases hu : tn ∈ used
    · rw [if_pos hu]
      dsimp only
      by_cases ht : tn = t
      · subst ht
        constructor
        · intro _
          exact ⟨⟨td, List.mem_cons_self _ _⟩, hu⟩
        · intro _
          simp [dcontains, dget]
      · have hd : dcontains
            ((tn, (buildPType pfxs net tn td st).1)
              :: (transform_types pfxs net used rest (buildPType pfxs net tn td st).2).1) t
            = dcontains (transform_types pfxs net used rest (buildPType pfxs net tn td st).2).1 t := by
          simp [dcontains, dget, ht]
        rw [hd, ih]
        constructor
        · rintro ⟨⟨td', hm⟩, hu'⟩
          exact ⟨⟨td', List.mem_cons_of_mem _ hm⟩, hu'⟩
        · rintro ⟨⟨td', hm⟩, hu'⟩
          rcases List.mem_cons.mp hm with he | hr
          · injection he with h1 h2
            exact absurd h1.symm ht
          · exact ⟨⟨td', hr⟩, hu'⟩
    · rw [if_neg hu, ih]
      constructor
      · rintro ⟨⟨td', hm⟩, hu'⟩
        exact ⟨⟨td', List.mem_cons_of_mem _ hm⟩, hu'⟩
      · rintro ⟨⟨td', hm⟩, hu'⟩
        rcases List.mem_cons.mp hm with he | hr
        · injection he with h1 h2
          subst h1
          exact absurd hu' hu
        · exact ⟨⟨td', hr⟩, hu'⟩

/-- Claim C3 counterexample: the empty string is a declared type name and
is the range of a class attribute, yet it is absent from the output types
table (the truthiness test on range values drops it), so the claimed iff
fails at the type name that is the empty string. -/
theorem claim_C3_counterexample :
    dcontains (transform_types [] netTrue
        (collect_used_types cexC3_classes [] cexC3_types) cexC3_types
        initRunState).1 "" = false
    ∧ dcontains cexC3_types "" = true
    ∧ attrRangeRefs cexC3_classes "" := by
  refine ⟨by decide, by decide, ?_⟩
  exact ⟨"C", { attributes := [("x", { range := some "" })] }, "x",
    { range := some "" }, by decide, by decide, rfl⟩

/-- Claim C3 amended: for every non empty type name t, t appears in the
output types table exactly when t is declared in the input types table and
is the range of at least one class attribute or at least one global slot. -/
theorem claim_C3_amended (classes : Dict ClassDef) (slots : Dict SlotDef)
    (types : Dict TypeDef) (pfxs : Dict PrefixDef) (net : String → Bool)
    (st : RunState) (t : String) (h : ¬(t = "")) :
    dcontains (transform_types pfxs net
        (collect_used_types classes slots types) types st).1 t = true
    ↔ dcontains types t = true
      ∧ (attrRangeRefs classes t ∨ slotRangeRefs slots t) := by
  rw [dcontains_transform_types, mem_collect_used]
  constructor
  · rintro ⟨⟨td, hmem⟩, _, hct, hrefs⟩
    exact ⟨hct, hrefs⟩
  · rintro ⟨hct, hrefs⟩
    exact ⟨(dcontains_iff_mem t types).mp hct, h, hct, hrefs⟩

/-- Witness for the amended claim C3 at the declared and referenced type
name T. -/
theorem claim_C3_amended_witness :
    dcontains (transform_types [] netTrue
        (collect_used_types w3_classes [] w3_types) w3_types
        initRunState).1 "T" = true
    ↔ dcontains w3_types "T" = true
      ∧ (attrRangeRefs w3_classes "T" ∨ slotRangeRefs [] "T") :=
  claim_C3_amended w3_classes [] w3_types [] netTrue initRunState "T" (by decide)

/-- Processing one override entry can only touch the table entry stored
under its own override identity and under its (previously absent) base slot
name: every key already present and different from the override identity
keeps its value, and stays present. -/
theorem processUsageEntry_preserve (classes : Dict ClassDef) (fuel : Nat)
    (cn : String) (cd : ClassDef) (tbl : Dict PSlot)
    (ws : List (String × String)) (sn : String) (tbl' : Dict PSlot)
    (ws' : List (String × String)) (k : String)
    (h : processUsageEntry classes fuel cn cd tbl ws sn = some (tbl', ws'))
    (hk : dcontains tbl k = true) (hne : sn ++ "-" ++ cn ≠ k) :
    dget tbl' k = dget tbl k ∧ dcontains tbl' k = true := by
  unfold processUsageEntry at h
  cases ha : dget cd.attributes sn with
  | none =>
    rw [ha] at h
    dsimp only at h
    injection h with h
    injection h with h1 h2
    subst h1
    exact ⟨rfl, hk⟩
  | some ma =>
    rw [ha] at h
    dsimp only at h
    have hg1 : dget (dinsert tbl (sn ++ "-" ++ cn) (overrideRecord sn cn ma)) k
        = dget tbl k := dget_dinsert_ne _ hne tbl
    have hc1 : dcontains (dinsert tbl (sn ++ "-" ++ cn) (overrideRecord sn cn ma)) k
        = true := dcontains_dinsert_mono tbl _ _ hk
    by_cases hcont : dcontains (dinsert tbl (sn ++ "-" ++ cn) (overrideRecord sn cn ma)) sn = true
    · rw [if_pos hcont] at h
      injection h with h
      injection h with h1 h2
      subst h1
      exact ⟨hg1, hc1⟩
    · rw [if_neg hcont] at h
      cases hw : baseWalk classes sn fuel cd.is_a none with
      | none =>
        rw [hw] at h
        exact Option.noConfusion h
      | some ob =>
        rw [hw] at h
        cases ob with
        | none =>
          dsimp only at h
          injection h with h
          injection h with h1 h2
          subst h1
          exact ⟨hg1, hc1⟩
        | some b =>
          dsimp only at h
          injection h with h
          injection h with h1 h2
          have hkn : ¬(sn = k) := by
            intro he
            subst he
            exact hcont hc1
          constructor
          · rw [← h1, dget_dinsert_ne _ hkn _, hg1]
          · rw [← h1]
            exact dcontains_dinsert_mono _ _ _ hc1

/-- Folding the override entries of one class preserves every present key
that no entry of the class maps to its override identity. -/
theorem processUsageList_preserve (classes : Dict ClassDef) (fuel : Nat)
    (cn : String) (cd : ClassDef) (k : String) :
    ∀ (entries : List (String × AttrDef)) (tbl : Dict PSlot)
      (ws : List (String × String)) (tbl' : Dict PSlot)
      (ws' : List (String × String)),
      processUsageList classes fuel cn cd entries tbl ws = some (tbl', ws') →
      dcontains tbl k = true →
      (∀ sn x, (sn, x) ∈ entries → sn ++ "-" ++ cn ≠ k) →
      dget tbl' k = dget tbl k ∧ dcontains tbl' k = true := by
  intro entries
  induction entries with
  | nil =>
    intro tbl ws tbl' ws' h hk _
    simp only [processUsageList] at h
    injection h with h
    injection h with h1 h2
    subst h1
    exact ⟨rfl, hk⟩
  | cons e rest ih =>
    intro tbl ws tbl' ws' h hk hcol
    obtain ⟨sn, x⟩ := e
    simp only [processUsageList] at h
    cases he : processUsageEntry classes fuel cn cd tbl ws sn with
    | none =>
      rw [he] at h
      exact Option.noConfusion h
    | some pr =>
      rw [he] at h
      obtain ⟨tblm, wsm⟩ := pr
      dsimp only at h
      have hstep := processUsageEntry_preserve classes fuel cn cd tbl ws sn
        tblm wsm k he hk (hcol sn x (List.mem_cons_self _ _))
      have hrest := ih tblm wsm tbl' ws' h hstep.2
        (fun sn' x' hm => hcol sn' x' (List.mem_cons_of_mem _ hm))
      exact ⟨by rw [hrest.1, hstep.1], hrest.2⟩

/-- Folding the override materialization over all classes preserves every
present key that no override identity of any class collides with. -/
theorem processClassList_preserve (classes : Dict ClassDef) (fuel : Nat)
    (k : String) :
    ∀ (clist : List (String × ClassDef)) (tbl : Dict PSlot)
      (ws : List (String × String)) (tbl' : Dict PSlot)
      (ws' : List (String × String)),
      processClassList classes fuel clist tbl ws = some (tbl', ws') →
      dcontains tbl k = true →
      (∀ cn cd sn x, (cn, cd) ∈ clist → (sn, x) ∈ cd.slot_usage →
          sn ++ "-" ++ cn ≠ k) →
      dget tbl' k = dget tbl k ∧ dcontains tbl' k = true := by
  intro clist
  induction clist with
  | nil =>
    intro tbl ws tbl' ws' h hk _
    simp only [processClassList] at h
    injection h with h
    injection h with h1 h2
    subst h1
    exact ⟨rfl, hk⟩
  | cons e rest ih =>
    intro tbl ws tbl' ws' h hk hcol
    obtain ⟨cn, cd⟩ := e
    simp only [processClassList] at h
    cases he : processUsageList classes fuel cn cd cd.slot_usage tbl ws with
    | none =>
      rw [he] at h
      exact Option.noConfusion h
    | some pr =>
      rw [he] at h
      obtain ⟨tblm, wsm⟩ := pr
      dsimp only at h
      have hstep := processUsageList_preserve classes fuel cn cd k
        cd.slot_usage tbl ws tblm wsm he hk
        (fun sn x hm => hcol cn cd sn x (List.mem_cons_self _ _) hm)
      have hrest := ih tblm wsm tbl' ws' h hstep.2
        (fun cn' cd' sn x hm hu => hcol cn' cd' sn x (List.mem_cons_of_mem _ hm) hu)
      exact ⟨by rw [hrest.1, hstep.1], hrest.2⟩

/-- Claim C10 counterexample: a global slot literally named a-C is declared
in the input slots table, and class C overrides its attribute a, producing
the override identity a-C; the output record under a-C is the override
record (carrying an overrides back reference), not the record built from
the global slot definition in the first phase. -/
theorem claim_C10_counterexample :
    transform_slots cexC10_slots cexC10_classes [] netTrue 1 initRunState
      = some ([("a-C",
          { id := "a-C", name := "a", range := some "string", overrides := some "a" })],
          [], initRunState)
    ∧ (addBaseSlots [] netTrue cexC10_slots [] initRunState).1
      = [("a-C", { id := "a-C", name := "a-C", range := some "string" })]
    ∧ ({ id := "a-C", name := "a", range := some "string", overrides := some "a" } : PSlot)
      ≠ { id := "a-C", name := "a-C", range := some "string" } := by
  refine ⟨?_, ?_, ?_⟩ <;> decide

/-- Claim C10 amended: for every field name present after the base slot
phase, provided no override identity of any class equals that name, the
final output record under it is exactly the phase one record; and in one
override step every previously present key other than the override identity
of the step keeps its value (in particular, base record discovery, guarded
by the absence check, never overwrites an existing entry). -/
theorem claim_C10_amended (slots : Dict SlotDef) (classes : Dict ClassDef)
    (pfxs : Dict PrefixDef) (net : String → Bool) (fuel : Nat)
    (st : RunState) (k : String) (tbl : Dict PSlot)
    (ws : List (String × String)) (st' : RunState)
    (hk : dcontains (addBaseSlots pfxs net slots [] st).1 k = true)
    (hnc : ∀ cn cd sn x, (cn, cd) ∈ classes → (sn, x) ∈ cd.slot_usage →
        sn ++ "-" ++ cn ≠ k)
    (hres : transform_slots slots classes pfxs net fuel st = some (tbl, ws, st')) :
    dget tbl k = dget (addBaseSlots pfxs net slots [] st).1 k
    ∧ (∀ tbl0 ws0 cn cd sn tbl1 ws1 kk,
        processUsageEntry classes fuel cn cd tbl0 ws0 sn = some (tbl1, ws1) →
        dcontains tbl0 kk = true → sn ++ "-" ++ cn ≠ kk →
        dget tbl1 kk = dget tbl0 kk) := by
  constructor
  · simp only [transform_slots] at hres
    cases hp : processClassList classes fuel classes
        (addBaseSlots pfxs net slots [] st).1 [] with
    | none =>
      rw [hp] at hres
      exact Option.noConfusion hres
    | some pr =>
      rw [hp] at hres
      obtain ⟨tblr, wsr⟩ := pr
      dsimp only at hres
      injection hres with hres
      injection hres with h1 hres2
      subst h1
      exact (processClassList_preserve classes fuel k classes
        (addBaseSlots pfxs net slots [] st).1 [] tblr wsr hp hk hnc).1
  · intro tbl0 ws0 cn cd sn tbl1 ws1 kk he hc hne
    exact (processUsageEntry_preserve classes fuel cn cd tbl0 ws0 sn
      tbl1 ws1 kk he hc hne).1

/-- Witness for the amended claim C10: with a global slot s and one
override a on class C, the output record under s is the phase one record. -/
theorem claim_C10_amended_witness :
    dget [("s", { id := "s", name := "s", range := none }),
          ("a-C",
          { id := "a-C", name := "a", range := some "string", overrides := some "a" })] "s"
      = dget (addBaseSlots [] netTrue w10_slots [] initRunState).1 "s" :=
  (claim_C10_amended w10_slots cexC10_classes [] netTrue 1 initRunState "s"
    [("s", { id := "s", name := "s", range := none }),
     ("a-C",
     { id := "a-C", name := "a", range := some "string", overrides := some "a" })] [] initRunState
    (by decide)
    (by
      intro cn cd sn x hm hu
      simp only [cexC10_classes, List.mem_singleton] at hm
      injection hm with h1 h2
      subst h1
      subst h2
      dsimp only at hu
      rcases List.mem_singleton.mp hu with he
      injection he with h3 h4
      subst h3
      decide)
    (by decide)).1
